import Mathlib

/-!
Formal model of `src/lib/chain.js`, an asynchronous flow-control library.

The development shallowly embeds the parts of the source the claims are
about:

* the per-chain state (`Ch`, mirroring the fields set up in the `Chain`
  constructor, lines 66-110 of `chain.js`);
* the inner resolution engine (`resolveLoop` / `resolveCont`, mirroring the
  closure `resolve` at lines 280-482);
* the outer scheduling wrapper `Chain.prototype.resolve` (lines 257-278),
  modelled by `chainResolveOuter`;
* the per-settlement execution context (`Ctx`, with `ctxNext` mirroring
  `next` at lines 333-338, `ctxDelay` mirroring `delay` at lines 327-331 and
  `ctxReject` mirroring `reject` at lines 394-398);
* `Chain.prototype.spread` (lines 221-241, `spreadHB`);
* the `all` combinator (lines 491-557, `allInit` / `allSettle` / `allRun`).

Handlers queued on a chain are represented by identifiers (`Nat`); an
environment `HEnv` maps an identifier to the handler's observable behaviour
(`HOut`): returning a value, throwing, or synchronously calling the
execution context's `next` with fresh arguments as its final action.  The
engine records every handler invocation (identifier, mode, argument list) in
a trace of `Event`s, so that claims about which handlers run, how often, in
which order, and with which arguments can be stated directly.

JavaScript values flowing through a chain are modelled by the plain-data
type `Val`.  Machine-level aspects (object identity, prototype lookup) play
no role in the claims and are not modelled; `undefined` is `Val.undef`, so
the source's `typeof x === 'undefined'` tests become equality with
`Val.undef`.  Function-valued payloads (nested chains / thenables returned
from a handler, lines 450-472) are outside the claims considered here and
are not representable in `Val`; consequently the `isChainable` /
`isThenable` tests on a handler's return value are always false in this
model.  The `noHijack` ("raw invocation") flag of a step only changes how
the execution-context object is passed to the handler (lines 408, 429); the
value arguments are the same either way, and behaviours observe only value
arguments, so the flag is carried but does not change invocation in the
model.
-/

namespace ChainLib

/-- Plain JavaScript values carried through a chain: `undefined`, `null`,
booleans, numbers (integers suffice for the claims), strings, arrays and
`Error` objects (identified by their message). -/
inductive Val where
  | undef : Val
  | vnull : Val
  | vbool : Bool → Val
  | vint : Int → Val
  | vstr : String → Val
  | arr : List Val → Val
  | errObj : String → Val

mutual

/-- Decidable equality for `Val` (hand-written because of the nested
`List Val` occurrence). -/
def Val.decEq : (a b : Val) → Decidable (a = b)
  | .undef, .undef => isTrue rfl
  | .vnull, .vnull => isTrue rfl
  | .vbool x, .vbool y =>
    if h : x = y then isTrue (by rw [h])
    else isFalse (fun hh => h (Val.vbool.inj hh))
  | .vint x, .vint y =>
    if h : x = y then isTrue (by rw [h])
    else isFalse (fun hh => h (Val.vint.inj hh))
  | .vstr x, .vstr y =>
    if h : x = y then isTrue (by rw [h])
    else isFalse (fun hh => h (Val.vstr.inj hh))
  | .arr x, .arr y =>
    match Val.decEqList x y with
    | isTrue h => isTrue (by rw [h])
    | isFalse h => isFalse (fun hh => h (Val.arr.inj hh))
  | .errObj x, .errObj y =>
    if h : x = y then isTrue (by rw [h])
    else isFalse (fun hh => h (Val.errObj.inj hh))
  | .undef, .vnull | .undef, .vbool _ | .undef, .vint _ | .undef, .vstr _
  | .undef, .arr _ | .undef, .errObj _ => isFalse nofun
  | .vnull, .undef | .vnull, .vbool _ | .vnull, .vint _ | .vnull, .vstr _
  | .vnull, .arr _ | .vnull, .errObj _ => isFalse nofun
  | .vbool _, .undef | .vbool _, .vnull | .vbool _, .vint _ | .vbool _, .vstr _
  | .vbool _, .arr _ | .vbool _, .errObj _ => isFalse nofun
  | .vint _, .undef | .vint _, .vnull | .vint _, .vbool _ | .vint _, .vstr _
  | .vint _, .arr _ | .vint _, .errObj _ => isFalse nofun
  | .vstr _, .undef | .vstr _, .vnull | .vstr _, .vbool _ | .vstr _, .vint _
  | .vstr _, .arr _ | .vstr _, .errObj _ => isFalse nofun
  | .arr _, .undef | .arr _, .vnull | .arr _, .vbool _ | .arr _, .vint _
  | .arr _, .vstr _ | .arr _, .errObj _ => isFalse nofun
  | .errObj _, .undef | .errObj _, .vnull | .errObj _, .vbool _
  | .errObj _, .vint _ | .errObj _, .vstr _ | .errObj _, .arr _ => isFalse nofun

/-- Decidable equality for lists of `Val`. -/
def Val.decEqList : (xs ys : List Val) → Decidable (xs = ys)
  | [], [] => isTrue rfl
  | [], _ :: _ => isFalse nofun
  | _ :: _, [] => isFalse nofun
  | x :: xs, y :: ys =>
    match Val.decEq x y, Val.decEqList xs ys with
    | isTrue h1, isTrue h2 => isTrue (by rw [h1, h2])
    | isFalse h1, _ => isFalse (fun hh => h1 (List.cons.inj hh).1)
    | isTrue _, isFalse h2 => isFalse (fun hh => h2 (List.cons.inj hh).2)

end

instance : DecidableEq Val := Val.decEq

/-- JavaScript truthiness of a `Val` (`!!v`). -/
def truthy : Val → Bool
  | .undef => false
  | .vnull => false
  | .vbool b => b
  | .vint n => n != 0
  | .vstr s => s != ""
  | .arr _ => true
  | .errObj _ => true

/-- `Array.isArray`. -/
def isArr : Val → Bool
  | .arr _ => true
  | _ => false

/-- Line 283 of `chain.js`: the argument list derived from the chain's
current value when `resolve` is entered with no explicit arguments:
`Array.isArray(this._value) ? this._value : [this._value]`. -/
def argsOf : Val → List Val
  | .arr l => l
  | v => [v]

/-- The observable behaviour of one handler invocation.  `ret v` is a normal
return (`ret Val.undef` is returning `undefined`, or falling off the end);
`throwE e` is a synchronous throw; `nextThen args` is calling
`this.next(...args)` as the handler's final action and then returning
`undefined` (this is how `spread`'s internal callback behaves,
lines 222-238). -/
inductive HOut where
  | ret : Val → HOut
  | throwE : Val → HOut
  | nextThen : List Val → HOut
deriving DecidableEq

/-- A handler behaviour: from the value arguments it is invoked with to what
it does. -/
abbrev HB := List Val → HOut

/-- An environment assigning a behaviour to each handler identifier. -/
abbrev HEnv := Nat → HB

/-- One queued step, `[fallback, errback]` or `[fallback, errback, true]`
(line 139): an optional success-handler identifier, an optional
failure-handler identifier, and the `noHijack` flag. -/
structure StepT where
  fallback : Option Nat
  errback : Option Nat
  noHijack : Bool := false
deriving DecidableEq

/-- The per-chain state: the fields initialised in the `Chain` constructor
(lines 66-110) that the resolution engine reads and writes.  `pending` is
`_pending`, `unPending` is `_unPending` (steps injected mid-resolution that
are merged to the front, lines 296-299), `value` is `_value`, `error` is the
optional `_error` property, `errors` is `_errors`, and `paused`,
`resolving`, `immediate` are `_paused`, `_resolving`, `_immediate`. -/
structure Ch where
  pending : List StepT
  unPending : List StepT
  value : Val
  error : Option Val
  errors : List Val
  paused : Bool
  resolving : Bool
  immediate : Bool
deriving DecidableEq

/-- A handler invocation recorded by the engine: which handler ran, whether
it ran in failure mode (as `fns[1]`) and the value arguments it received. -/
structure Event where
  hid : Nat
  isFailure : Bool
  args : List Val
deriving DecidableEq

/-- The continuation of one settlement (lines 444-481 of `chain.js`): if the
settlement's `skip` flag is set, the chain was paused, or an error is
pending, re-enter `resolve` with no arguments (line 445); otherwise store
the settled `value` into `_value` and re-enter `resolve` with `value`
spread into arguments (lines 474-476; `value` is never a chainable or a
thenable in this model, so lines 450-472 do not apply).  Afterwards, clear
`_resolving` if the queue is empty (lines 479-481).  `recur` is the
re-entry into `resolve`; `resolveLoop` passes itself (at one fuel less). -/
def resolveCont (recur : Ch → List Val → Ch × List Event) (st : Ch) (value : Val)
    (skip : Bool) : Ch × List Event :=
  if skip || st.paused || st.error.isSome then
    recur st []
  else
    let p := recur { st with value := value } (argsOf value)
    (if p.1.pending.isEmpty then { p.1 with resolving := false } else p.1, p.2)

/-- The inner resolution engine: the closure `resolve` of
`Chain.prototype.resolve` (lines 280-482 of `chain.js`).  One call models
one invocation of `resolve`; `incoming` is the (possibly empty) JavaScript
`arguments` list.  `fuel` bounds the recursion depth (the source recurses
through closures); every claim instantiates it with a concrete bound large
enough for the run at hand.  The result is the final chain state together
with the list of handler invocations performed, in order.

Line-by-line correspondence: lines 281-287 compute `args` and update
`_value`; line 289 stops (clearing `_resolving`) on an empty queue; line 294
stops while paused; lines 296-299 merge `_unPending` to the front of the
queue; line 300 pops the head step; lines 304-306 skip a step with neither
handler; lines 400-421 run the failure slot when `_error` is set (pushing
the error onto `_errors` first, clearing `_error` on normal return,
replacing it on throw, and defaulting an `undefined` result to
`[self._error]`); lines 422-442 run the success slot (defaulting an
`undefined` result to `[]`); the continuation (lines 444-481) is
`resolveCont`.  A behaviour `nextThen nargs` models a handler whose last
action is `this.next(...nargs)`: `next` (lines 333-338) clears `_paused`,
sets the settlement's `skip` flag and re-enters `resolve` with `nargs`
while the handler is still on the stack; the handler then returns
`undefined` (and, in failure mode, line 412 deletes `_error` afterwards). -/
def resolveLoop (env : HEnv) : Nat → Ch → List Val → Ch × List Event
  | 0, st, _ => (st, [])
  | fuel + 1, st, incoming =>
    let args := if incoming.isEmpty then argsOf st.value else incoming
    let st1 := if incoming.isEmpty then st else { st with value := Val.arr incoming }
    if st1.pending.isEmpty then ({ st1 with resolving := false }, [])
    else if st1.paused then (st1, [])
    else
      let st2 := { st1 with pending := st1.unPending ++ st1.pending, unPending := [] }
      match st2.pending with
      | [] => (st2, [])
      | fns :: rest =>
        let st3 := { st2 with pending := rest }
        if fns.fallback.isNone && fns.errback.isNone then
          resolveLoop env fuel st3 args
        else
          match st3.error with
          | some err =>
            match fns.errback with
            | none => resolveLoop env fuel st3 args
            | some fid =>
              let stE := { st3 with errors := st3.errors ++ [err] }
              let ev : Event := ⟨fid, true, [err]⟩
              match env fid [err] with
              | .ret v =>
                let p := resolveCont (resolveLoop env fuel) { stE with error := none }
                  (if v = Val.undef then Val.arr [Val.undef] else v) false
                (p.1, ev :: p.2)
              | .throwE e =>
                let p := resolveCont (resolveLoop env fuel) { stE with error := some e } (Val.arr [e]) false
                (p.1, ev :: p.2)
              | .nextThen nargs =>
                let q := resolveLoop env fuel { stE with paused := false } nargs
                let p := resolveCont (resolveLoop env fuel) { q.1 with error := none } (Val.arr [Val.undef]) true
                (p.1, ev :: (q.2 ++ p.2))
          | none =>
            match fns.fallback with
            | none => resolveLoop env fuel st3 args
            | some sid =>
              let ev : Event := ⟨sid, false, args⟩
              match env sid args with
              | .ret v =>
                let p := resolveCont (resolveLoop env fuel) st3 (if v = Val.undef then Val.arr [] else v) false
                (p.1, ev :: p.2)
              | .throwE e =>
                let p := resolveCont (resolveLoop env fuel) { st3 with error := some e } (Val.arr []) false
                (p.1, ev :: p.2)
              | .nextThen nargs =>
                let q := resolveLoop env fuel { st3 with paused := false } nargs
                let p := resolveCont (resolveLoop env fuel) q.1 (Val.arr []) true
                (p.1, ev :: (q.2 ++ p.2))

/-- What `Chain.prototype.resolve` (lines 257-278) does in the current
synchronous turn: nothing (line 258-260), schedule the drain on the next
tick (lines 266-272), or drain synchronously right now (lines 273-278). -/
inductive ResolveAction where
  | noop : ResolveAction
  | deferTick : ResolveAction
  | drainNow : ResolveAction
deriving DecidableEq

/-- The queue push of `_chain` (lines 138-140): a step is appended only when
at least one of its two slots is a function.  (The chainable-`fallback`
bridge of lines 113-136 wraps a chain-valued `fallback` into a function
before this point; handler identifiers in this model always stand for
functions, so that branch is not taken.)  The `prepend` variant used by the
execution context pushes onto `_unPending` instead; no claim exercises it,
and the engine's merge of `_unPending` (lines 296-299) is modelled in
`resolveLoop`. -/
def chainPush (st : Ch) (s : StepT) : Ch :=
  if s.fallback.isSome || s.errback.isSome then
    { st with pending := st.pending ++ [s] }
  else st

/-- `Chain.prototype.resolve` (lines 257-278).  With an empty queue or a
drain already in progress it does nothing (line 258).  Otherwise it sets
`_resolving` and either defers the first drain of this trigger to the next
tick (lines 266-272, leaving `_immediate` untouched) or, when `_immediate`
is true, resets `_immediate` to the process-wide default (`globalImmediate`,
the module's `_immediate` variable, line 274) and drains synchronously
(line 275).  The returned event list is what ran in the current turn (empty
for a deferred drain; the deferred drain itself is a later
`resolveLoop env fuel st []`, since the scheduled thunk is
`resolve.call(self)` with no arguments, line 268). -/
def chainResolveOuter (env : HEnv) (globalImmediate : Bool) (fuel : Nat) (st : Ch) :
    Ch × List Event × ResolveAction :=
  if st.pending.isEmpty || st.resolving then (st, [], .noop)
  else
    let st1 := { st with resolving := true }
    if !st1.immediate then (st1, [], .deferTick)
    else
      let st2 := { st1 with immediate := globalImmediate }
      let p := resolveLoop env fuel st2 []
      (p.1, p.2, .drainNow)

/-- `Chain.prototype.chain` (lines 143-149): append the step (via `_chain`)
and trigger resolution. -/
def chainMethod (env : HEnv) (globalImmediate : Bool) (fuel : Nat) (st : Ch)
    (s : StepT) : Ch × List Event × ResolveAction :=
  chainResolveOuter env globalImmediate fuel (chainPush st s)

/-- The recognised shapes of the `Chain` constructor's `value` argument
(lines 75-107): one of the three sentinels, a configuration object carrying
at least one of the recognised `now` / `tick` / `pause` attributes together
with a payload, or a plain (non-object) value. -/
inductive InitV where
  | sentinelNOW : InitV
  | sentinelTICK : InitV
  | sentinelPAUSE : InitV
  | config : Bool → Bool → Bool → Val → InitV
  | plain : Val → InitV

/-- The `Chain` constructor (lines 66-110) as a state, given the
process-wide default mode `globalImmediate` (the module variable
`_immediate`).  `config useNow useTick usePause payload` models an object
argument: the mode starts from the default, then `tick` forces deferred,
then `now` forces immediate (line 94 runs after line 89, so `now` wins),
and `pause` sets `_paused`; the payload becomes `_value`.  The constructor's
closing `this.chain(fallback, errback, noHijack)` call is the identity when
no handlers are supplied (`_chain` pushes nothing and `resolve` returns on
the empty queue); chains built with initial handlers compose this state
with `chainMethod`. -/
def mkChainState (globalImmediate : Bool) : InitV → Ch
  | .sentinelNOW => ⟨[], [], Val.undef, none, [], false, false, true⟩
  | .sentinelTICK => ⟨[], [], Val.undef, none, [], false, false, false⟩
  | .sentinelPAUSE => ⟨[], [], Val.undef, none, [], true, false, globalImmediate⟩
  | .config useNow useTick usePause payload =>
    ⟨[], [], payload, none, [],
      usePause, false, if useNow then true else if useTick then false else globalImmediate⟩
  | .plain v => ⟨[], [], v, none, [], false, false, globalImmediate⟩

/-- `now(value)` (lines 663-666): `start({now: NOW, value: value})`, an
immediate-mode chain holding `value`. -/
def nowChain (globalImmediate : Bool) (v : Val) : Ch :=
  mkChainState globalImmediate (.config true false false v)

/-- The state of one settlement's execution context (the `obj` capability
object plus the closed-over flags of lines 308-338): `nextOnce` and `skip`
are the per-settlement flags, `chPaused` and `chError` are the owning
chain's `_paused` and `_error` fields as the context sees them, and
`resolveCalls` records each re-entry into `resolve` the context performs,
with the argument list passed. -/
structure Ctx where
  nextOnce : Bool
  skip : Bool
  chPaused : Bool
  chError : Option Val
  resolveCalls : List (List Val)
deriving DecidableEq

/-- `next` / `resume` (lines 333-338): a no-op once `nextOnce` is set;
otherwise it clears `_paused`, sets `nextOnce` and `skip`, and re-enters
`resolve` with its arguments. -/
def ctxNext (c : Ctx) (args : List Val) : Ctx :=
  if c.nextOnce then c
  else { c with chPaused := false, nextOnce := true, skip := true,
                resolveCalls := c.resolveCalls ++ [args] }

/-- `delay` / `pause` (lines 327-331): a no-op once `skip` is set; otherwise
it sets `skip` and pauses the chain. -/
def ctxDelay (c : Ctx) : Ctx :=
  if c.skip then c else { c with skip := true, chPaused := true }

/-- `reject` (lines 394-398): replace a falsy reason by a generic `Error`,
store it as the chain's pending `_error`, then call `next()` (with no
arguments).  Note `reject` declares the single parameter `reason`; any
further arguments at a call site are ignored. -/
def ctxReject (c : Ctx) (reason : Val) : Ctx :=
  let r := if truthy reason then reason else Val.errObj "No reason given"
  ctxNext { c with chError := some r } []

/-- The internal `_callback` of `Chain.prototype.spread` (lines 222-238):
with exactly one array argument, pass its elements to `next`; with exactly
one non-array argument, return it; otherwise pass all the arguments to
`next`.  `spread` queues this callback followed by the caller's handlers
(line 240). -/
def spreadHB : HB := fun args =>
  match args with
  | [Val.arr l] => .nextThen l
  | [v] => .ret v
  | l => .nextThen l

/-- The errors delivered to failure handlers in a trace, in order (each
failure-mode invocation receives exactly `[self._error]`, line 408). -/
def failureArgsFlat : List Event → List Val
  | [] => []
  | ev :: t => (if ev.isFailure then ev.args else []) ++ failureArgsFlat t

/-- The eventual settlement an asynchronous entry of `all(values)` delivers
to its attached observer: success with the delivered argument list, or
failure with an error. -/
inductive Settle where
  | ok : List Val → Settle
  | err : Val → Settle
deriving DecidableEq

/-- One entry of the `values` array given to `all` (line 491): a plain
(non-thenable) value, or an asynchronous entry (a chain or thenable)
together with its eventual settlement. -/
inductive AllEntry where
  | plain : Val → AllEntry
  | async : Settle → AllEntry
deriving DecidableEq

/-- What the chain returned by `all` delivers to the next queued handler
once it settles: the argument list of a success delivery (to a `fallback`)
or of a failure delivery (to an `errback`). -/
inductive Delivery where
  | success : List Val → Delivery
  | failure : List Val → Delivery
deriving DecidableEq

/-- Line 532: `arguments.length > 1 ? Array.prototype.slice.call(arguments)
: arguments[0]`. -/
def collapse (args : List Val) : Val :=
  if args.length > 1 then Val.arr args else args.headD Val.undef

/-- The closure state of one `all(values)` call (lines 494-499): the
`complete` counter, the per-index `results` array (length `len`, settled
slots filled, others `undefined`), `firstErr`, the lazily created
`errResults` array, and the delivery the result chain has made (`none`
while `whenDone` has not fired; `resume`/`reject` are honoured once by
`next`'s `nextOnce` guard, so only the first delivery is observable). -/
structure AllState where
  complete : Nat
  results : List Val
  firstErr : Val
  errResults : Option (List Val)
  delivery : Option Delivery
deriving DecidableEq

/-- Is this entry attached to as a chain/thenable (`isThenable(values[i])`,
line 515)? -/
def isAsyncEntry : AllEntry → Bool
  | .async _ => true
  | .plain _ => false

/-- The construction loop's synchronous part (lines 514-520): every
non-thenable entry fills its `results` slot immediately and counts as
complete. -/
def allInit (entries : List AllEntry) : AllState :=
  ⟨entries.countP (fun e => !isAsyncEntry e),
   entries.map (fun e => match e with | .plain v => v | .async _ => Val.undef),
   Val.undef, none, none⟩

/-- The observable effect of a `ctx.reject(...)` call: `reject` (line 394)
declares the single parameter `reason`, so extra call-site arguments are
dropped; a falsy reason becomes the generic `Error('No reason given')`
(line 395); the stored `_error` is then what the next failure handler
receives as its single argument (line 408). -/
def rejectDelivery (callArgs : List Val) : List Val :=
  [if truthy (callArgs.headD Val.undef) then callArgs.headD Val.undef
   else Val.errObj "No reason given"]

/-- The delivery `whenDone` makes when it fires (lines 508-510):
`ctx.reject(firstErr, errResults)` if any entry failed — the call passes
`errResults` but `reject`'s unary signature drops it — otherwise
`ctx.resume(results)`, whose single argument `results` is what the next
success handler receives. -/
def allFinish (st : AllState) : Delivery :=
  match st.errResults with
  | some _ => .failure (rejectDelivery [st.firstErr, Val.arr (st.errResults.getD [])])
  | none => .success [Val.arr st.results]

/-- `whenDone` (lines 507-512): fires only when every entry has settled.
The `delivery = none` guard models `next`'s `nextOnce` once-only rule: a
second `whenDone` call at full completion (possible via line 554 when every
entry settled synchronously) re-runs `reject`/`resume` but observably
changes nothing. -/
def whenDone (len : Nat) (st : AllState) : AllState :=
  if st.complete = len ∧ st.delivery = none then
    { st with delivery := some (allFinish st) }
  else st

/-- The observer attached to asynchronous entry `k` (lines 522-551), at the
moment that entry settles.  On success: count it, record the (collapsed)
delivered arguments at index `k`, and check completion.  On failure: count
it, keep the first truthy error (line 543: `if (!firstErr) firstErr =
err`), record the error at index `k` in `errResults` (created on first
failure, line 545), and check completion.  The per-entry `done` flag makes
each entry settle at most once; correspondingly a settlement order contains
each index at most once. -/
def allSettle (len : Nat) (st : AllState) (k : Nat) : Settle → AllState
  | .ok args =>
    whenDone len { st with complete := st.complete + 1,
                           results := st.results.set k (collapse args) }
  | .err e =>
    whenDone len { st with complete := st.complete + 1,
                           firstErr := if truthy st.firstErr then st.firstErr else e,
                           errResults :=
                             some ((st.errResults.getD (List.replicate len Val.undef)).set k e) }

/-- The settlement entry `k`'s observer receives (for a plain value this is
never consulted; it is defined as an immediate success with the value, so
the function is total). -/
def settleAt (entries : List AllEntry) (k : Nat) : Settle :=
  match entries.getD k (.plain Val.undef) with
  | .async s => s
  | .plain v => .ok [v]

/-- The error entry `k` eventually fails with, if any. -/
def errAt (entries : List AllEntry) (k : Nat) : Option Val :=
  match settleAt entries k with
  | .err e => some e
  | .ok _ => none

/-- A full run of `all(values)` for a non-empty `values`: the synchronous
construction pass (`allInit`, followed by the trailing completion check of
line 554, which can fire only when no entry is asynchronous), then the
asynchronous entries settle one at a time in the given `order`. -/
def allRun (entries : List AllEntry) (order : List Nat) : AllState :=
  order.foldl (fun st k => allSettle entries.length st k (settleAt entries k))
    (whenDone entries.length (allInit entries))

/-- What the chain returned by `all(values)` delivers after `order` has
settled.  `all([])` returns `now()` (line 501), an immediate chain whose
value is `undefined`, so an attached success handler receives the single
argument `undefined`. -/
def allDelivered (entries : List AllEntry) (order : List Nat) : Option Delivery :=
  if entries.isEmpty then some (.success [Val.undef])
  else (allRun entries order).delivery

/-- The indices of the asynchronous entries, in position order.  A
settlement order is any permutation of this list. -/
def asyncIdxList (entries : List AllEntry) : List Nat :=
  (List.range entries.length).filter
    (fun k => isAsyncEntry (entries.getD k (.plain Val.undef)))

/-- Does some entry eventually fail? -/
def anyFail (entries : List AllEntry) : Bool :=
  entries.any (fun e => match e with | .async (.err _) => true | _ => false)

/-- Specification side: the per-index results sequence in original index
order, independent of the settlement order. -/
def expectedResults (entries : List AllEntry) : List Val :=
  entries.map (fun e => match e with
    | .plain v => v
    | .async (.ok args) => collapse args
    | .async (.err _) => Val.undef)

/-- Specification side: the rejection reason — the first truthy error in
settlement order, or the generic error when no failing entry delivered a
truthy reason. -/
def specReason (entries : List AllEntry) (order : List Nat) : Val :=
  match (order.filterMap (errAt entries)).find? truthy with
  | some e => e
  | none => Val.errObj "No reason given"

/-- Specification side: the `results` array after exactly the asynchronous
entries listed in `pre` have settled. -/
def resultsAfter (entries : List AllEntry) (pre : List Nat) : List Val :=
  (List.range entries.length).map (fun k =>
    match entries.getD k (.plain Val.undef) with
    | .plain v => v
    | .async (.ok args) => if k ∈ pre then collapse args else Val.undef
    | .async (.err _) => Val.undef)

/-- Specification side: the `errResults` array after exactly the entries in
`pre` have settled (failing settled indices hold their error, everything
else holds `undefined`). -/
def errsAfter (entries : List AllEntry) (pre : List Nat) : List Val :=
  (List.range entries.length).map (fun k =>
    if k ∈ pre then (errAt entries k).getD Val.undef else Val.undef)

/-- Has some entry listed in `pre` failed? -/
def hasFailIn (entries : List AllEntry) (pre : List Nat) : Bool :=
  pre.any (fun k => (errAt entries k).isSome)

/-- Specification side: the `firstErr` field after the settlements in
`pre`, mirroring line 543's fold. -/
def firstErrAfter (entries : List AllEntry) (pre : List Nat) : Val :=
  pre.foldl (fun acc k =>
    match errAt entries k with
    | some e => if truthy acc then acc else e
    | none => acc) Val.undef

/-- Specification side: the delivery made at completion, as a function of
the settled set `pre`. -/
def finishSpec (entries : List AllEntry) (pre : List Nat) : Delivery :=
  if hasFailIn entries pre then
    .failure (rejectDelivery [firstErrAfter entries pre, Val.arr (errsAfter entries pre)])
  else .success [Val.arr (resultsAfter entries pre)]

/-- The loop invariant of a partial `all` run: after the asynchronous
entries in `pre` (no duplicates, all asynchronous) have settled, the
closure state is determined by `pre`, and the delivery has been made if and
only if every entry has settled. -/
def AllInv (entries : List AllEntry) (pre : List Nat) (st : AllState) : Prop :=
  st.complete = entries.countP (fun e => !isAsyncEntry e) + pre.length ∧
  st.results = resultsAfter entries pre ∧
  st.firstErr = firstErrAfter entries pre ∧
  st.errResults = (if hasFailIn entries pre then some (errsAfter entries pre) else none) ∧
  st.delivery = (if entries.countP (fun e => !isAsyncEntry e) + pre.length = entries.length
                 then some (finishSpec entries pre) else none)

/-! ### Concrete scenarios used by individual claims -/

/-- The queue of claim C1: `s1` success-only, `s2` failure-only, `s3`
success-only. -/
def c1Queue : List StepT := [⟨some 1, none, false⟩, ⟨none, some 2, false⟩, ⟨some 3, none, false⟩]

/-- A chain mid-drain holding the C1 queue, value `v0`, no pending error. -/
def c1St (v0 : Val) : Ch := ⟨c1Queue, [], v0, none, [], false, true, true⟩

/-- C1 environment, recovery variant: `s1` throws `e`, `s2` returns `v`,
`s3` returns `undefined`. -/
def c1EnvRecover (e v : Val) : HEnv := fun i _ =>
  if i = 1 then .throwE e else if i = 2 then .ret v else .ret Val.undef

/-- C1 environment, rethrow variant: `s1` throws `e`, `s2` throws `e2`. -/
def c1EnvRethrow (e e2 : Val) : HEnv := fun i _ =>
  if i = 1 then .throwE e else if i = 2 then .throwE e2 else .ret Val.undef

/-- A deferred-mode chain with one queued success step and no drain in
progress (used by C3 and C8). -/
def c3St : Ch := ⟨[⟨some 1, none, false⟩], [], Val.vint 0, none, [], false, false, false⟩

/-- A chain mid-drain with a pending error `"boom"` whose only queued step
has no failure slot (used by C5). -/
def c5St : Ch := ⟨[⟨some 1, none, false⟩], [], Val.vint 0, some (Val.vstr "boom"), [], false, true, true⟩

/-- C7 environment: handler 10 is `spread`'s internal callback, handler 11
is the next step. -/
def c7Env : HEnv := fun i args => if i = 10 then spreadHB args else .ret Val.undef

/-- A chain mid-drain carrying value `v` whose queue is `spread`'s internal
callback followed by the next step (`this.chain(_callback).chain(fallback)`,
line 240; attaching both steps before draining is observably equivalent in
either scheduling mode, because the callback's `next` call stores the
spread arguments into `_value`, from which the second step's arguments are
recomputed). -/
def c7St (v : Val) : Ch := ⟨[⟨some 10, none, false⟩, ⟨some 11, none, false⟩], [], v, none, [], false, true, true⟩

/-- C9 environment: every handler returns `undefined`. -/
def c9Env : HEnv := fun _ _ => .ret Val.undef

/-- A chain mid-drain with value `5` and two queued success steps (handler
20 returns `undefined`; handler 21 observes what it is invoked with). -/
def c9St : Ch := ⟨[⟨some 20, none, false⟩, ⟨some 21, none, false⟩], [], Val.vint 5, none, [], false, true, true⟩

/-- The settlement an observer attached to an already-settled chain
receives: with a pending error the failure observer runs with it,
otherwise the success observer runs with the argument list derived from
the chain's value (`now3_observed` derives the `now(3)` instance from the
engine itself). -/
def settledObservation (c : Ch) : Settle :=
  match c.error with
  | some e => .err e
  | none => .ok (argsOf c.value)

/-! ### Lemmas and claim theorems -/

/-- Evaluation of `argsOf` on an array value. -/
theorem argsOf_arr (l : List Val) : argsOf (Val.arr l) = l := rfl

/-- Evaluation of `argsOf` on a non-array value. -/
theorem argsOf_of_isArr_false : ∀ (v : Val), isArr v = false → argsOf v = [v]
  | .undef, _ => rfl
  | .vnull, _ => rfl
  | .vbool _, _ => rfl
  | .vint _, _ => rfl
  | .vstr _, _ => rfl
  | .errObj _, _ => rfl
  | .arr _, h => by simp [isArr] at h

set_option maxHeartbeats 1000000 in
/-- C1: with queued steps `[s1(success only), s2(failure only), s3(success
only)]` where `s1` throws `e`: `s2`'s failure handler is invoked exactly
once, with `e`; `s1`'s success body runs only once (before the throw) and
no skipped success slot runs while the error is pending; `s3` is not
invoked before `s2` settles; if `s2` returns normally with a (defined,
non-array) value `v`, the pending error is cleared and `s3` runs with `v`;
if `s2` throws `e2`, the pending error becomes `e2` and the search
continues past `s3` (which never runs) to the next failure handler. -/
theorem c1_error_propagation (e v0 v e2 : Val) (hv0Arr : isArr v0 = false)
    (hvArr : isArr v = false) (hvU : v ≠ Val.undef) :
    (resolveLoop (c1EnvRecover e v) 6 (c1St v0) []).2 =
      [⟨1, false, [v0]⟩, ⟨2, true, [e]⟩, ⟨3, false, [v]⟩]
    ∧ (resolveLoop (c1EnvRecover e v) 6 (c1St v0) []).1.error = none
    ∧ (resolveLoop (c1EnvRethrow e e2) 6 (c1St v0) []).2 =
      [⟨1, false, [v0]⟩, ⟨2, true, [e]⟩]
    ∧ (resolveLoop (c1EnvRethrow e e2) 6 (c1St v0) []).1.error = some e2 := by
  have hv := argsOf_of_isArr_false v hvArr
  have hv0 := argsOf_of_isArr_false v0 hv0Arr
  refine ⟨?_, ?_, ?_, ?_⟩ <;>
    simp [c1EnvRecover, c1EnvRethrow, c1St, c1Queue, resolveLoop, resolveCont,
      argsOf_arr, hv, hv0, hvU]

/-- Witness for C1 at `e = "e"`, `v0 = 0`, `v = 7`, `e2 = "f"`. -/
theorem c1_error_propagation_w :
    (resolveLoop (c1EnvRecover (Val.vstr "e") (Val.vint 7)) 6 (c1St (Val.vint 0)) []).2 =
      [⟨1, false, [Val.vint 0]⟩, ⟨2, true, [Val.vstr "e"]⟩, ⟨3, false, [Val.vint 7]⟩] :=
  (c1_error_propagation (Val.vstr "e") (Val.vint 0) (Val.vint 7) (Val.vstr "f")
    (by decide) (by decide) (by decide)).1

/-- C3 counterexample: a chain with `immediate = false`, a non-empty queue
and no drain in progress, while the process-wide default is `true`.  The
trigger defers the drain to the next tick, but after that deferred drain
the chain's `immediate` flag is still `false` — it is not reset to the
process-wide default (`true`); the reset happens only on the
`immediate = true` path (line 274). -/
theorem c3_counterexample :
    (chainResolveOuter (fun _ _ => HOut.ret Val.undef) true 6 c3St).2.2 =
      ResolveAction.deferTick
    ∧ (resolveLoop (fun _ _ => HOut.ret Val.undef) 6
        (chainResolveOuter (fun _ _ => HOut.ret Val.undef) true 6 c3St).1 []).1.immediate
        = false := by decide

/-- C3 (amended): when `resolve` is triggered with a non-empty queue and no
resolution in progress: if the chain's `immediate` flag is false, the drain
is deferred to the next tick and the flag is left unchanged; if the flag is
true, it is first reset to the process-wide default and the drain runs
synchronously in the current turn. -/
theorem c3_immediate_scheduling (env : HEnv) (global : Bool) (fuel : Nat) (st : Ch)
    (h1 : st.pending ≠ []) (h2 : st.resolving = false) :
    (st.immediate = false →
      chainResolveOuter env global fuel st = ({ st with resolving := true }, [], .deferTick))
    ∧ (st.immediate = true →
      chainResolveOuter env global fuel st =
        ((resolveLoop env fuel { st with resolving := true, immediate := global } []).1,
         (resolveLoop env fuel { st with resolving := true, immediate := global } []).2,
         .drainNow)) := by
  have hne : st.pending.isEmpty = false := by
    cases hp : st.pending with
    | nil => exact absurd hp h1
    | cons x xs => rfl
  constructor <;> intro him <;> simp [chainResolveOuter, hne, h2, him]

/-- Witness for C3 on the deferred branch at `c3St` with process default
`true`. -/
theorem c3_immediate_scheduling_w :
    chainResolveOuter (fun _ _ => HOut.ret Val.undef) true 3 c3St =
      ({ c3St with resolving := true }, [], .deferTick) :=
  (c3_immediate_scheduling (fun _ _ => HOut.ret Val.undef) true 3 c3St
    (by decide) rfl).1 rfl

/-- C4: within one settlement, only the first `resume`/`next` call is
honoured: the first call re-enters `resolve` exactly once with its argument
list (which, entering a drained chain, becomes the carried `_value`), and
any later call — here with a different argument list `b` — is a complete
no-op: it changes nothing and re-enters no loop. -/
theorem c4_next_honored_once (c : Ctx) (a b : List Val) (env : HEnv) (fuel : Nat)
    (st : Ch) (h : c.nextOnce = false) (ha : a ≠ []) (hq : st.pending = []) :
    (ctxNext c a).resolveCalls = c.resolveCalls ++ [a]
    ∧ ctxNext (ctxNext c a) b = ctxNext c a
    ∧ (resolveLoop env (fuel + 1) st a).1.value = Val.arr a := by
  refine ⟨by simp [ctxNext, h], by simp [ctxNext, h], ?_⟩
  obtain ⟨x, xs, rfl⟩ := List.exists_cons_of_ne_nil ha
  simp [resolveLoop, hq]

/-- Witness for C4 at a fresh context and `a = [1]`, `b = [2]`. -/
theorem c4_next_honored_once_w :
    (ctxNext ⟨false, false, false, none, []⟩ [Val.vint 1]).resolveCalls = [[Val.vint 1]]
    ∧ ctxNext (ctxNext ⟨false, false, false, none, []⟩ [Val.vint 1]) [Val.vint 2] =
        ctxNext ⟨false, false, false, none, []⟩ [Val.vint 1] :=
  ⟨(c4_next_honored_once ⟨false, false, false, none, []⟩ [Val.vint 1] [Val.vint 2]
      c9Env 0 (nowChain true Val.undef) rfl (by decide) rfl).1,
   (c4_next_honored_once ⟨false, false, false, none, []⟩ [Val.vint 1] [Val.vint 2]
      c9Env 0 (nowChain true Val.undef) rfl (by decide) rfl).2.1⟩

/-- C7: `spread` with carried arguments `1, 2, 3` invokes the next step
with three separate arguments `1, 2, 3`; with the single array argument
`[1, 2, 3]` it also invokes the next step with `1, 2, 3`; with the single
non-array argument `5` it invokes the next step with just `5`. -/
theorem c7_spread :
    (resolveLoop c7Env 8 (c7St (Val.arr [Val.vint 1, Val.vint 2, Val.vint 3])) []).2 =
      [⟨10, false, [Val.vint 1, Val.vint 2, Val.vint 3]⟩,
       ⟨11, false, [Val.vint 1, Val.vint 2, Val.vint 3]⟩]
    ∧ (resolveLoop c7Env 8 (c7St (Val.arr [Val.arr [Val.vint 1, Val.vint 2, Val.vint 3]])) []).2 =
      [⟨10, false, [Val.arr [Val.vint 1, Val.vint 2, Val.vint 3]]⟩,
       ⟨11, false, [Val.vint 1, Val.vint 2, Val.vint 3]⟩]
    ∧ (resolveLoop c7Env 8 (c7St (Val.vint 5)) []).2 =
      [⟨10, false, [Val.vint 5]⟩, ⟨11, false, [Val.vint 5]⟩] := by decide

/-- C8: a handler attached by `chain` to a deferred-mode chain is never
invoked in the same synchronous turn (the attaching call performs no
handler invocation at all); on an immediate-mode chain it may run
synchronously — witnessed by `now(7).chain(h1)`, where `h1` runs during the
attaching call with argument `7`. -/
theorem c8_deferred_not_sync :
    (∀ (env : HEnv) (global : Bool) (fuel : Nat) (st : Ch) (s : StepT),
      st.immediate = false → (chainMethod env global fuel st s).2.1 = [])
    ∧ (chainMethod (fun _ _ => HOut.ret Val.undef) true 4 (nowChain true (Val.vint 7))
        ⟨some 1, none, false⟩).2.1 = [⟨1, false, [Val.vint 7]⟩] := by
  constructor
  · intro env global fuel st s h
    have himm : (chainPush st s).immediate = false := by
      unfold chainPush; split <;> simp [h]
    unfold chainMethod chainResolveOuter
    split
    · rfl
    · simp [himm]
  · decide

/-- Witness for C8's universal part at the deferred chain `c3St`. -/
theorem c8_deferred_not_sync_w :
    (chainMethod (fun _ _ => HOut.ret Val.undef) true 3 c3St ⟨some 2, none, false⟩).2.1 = [] :=
  c8_deferred_not_sync.1 (fun _ _ => HOut.ret Val.undef) true 3 c3St ⟨some 2, none, false⟩ rfl

/-- C9 (divergence witness): with chain value `5`, a handler that returns
`undefined` makes the engine set `value = []` (line 441) and then store it
into `_value` (line 474), so the following step is invoked with zero
arguments instead of the previous value `5` — contrary to the guarantee
comment at lines 39-42 of the source ("If `fallback` returned `undefined`
(or nothing), the value before that"). -/
theorem c9_undefined_return_drops_value :
    (resolveLoop c9Env 6 c9St []).2 = [⟨20, false, [Val.vint 5]⟩, ⟨21, false, []⟩]
    ∧ (resolveLoop c9Env 6 c9St []).1.value = Val.arr [] := by decide

/-- C10: once `resume`/`next` has been honoured for an execution context, a
later `reject(reason)` with a truthy reason still overwrites the chain's
pending `_error` with `reason`, while the `next()` it performs is a no-op:
nothing else changes and no `resolve` re-entry happens. -/
theorem c10_reject_after_resume (c : Ctx) (r : Val)
    (h : c.nextOnce = true) (hr : truthy r = true) :
    ctxReject c r = { c with chError := some r }
    ∧ (ctxReject c r).resolveCalls = c.resolveCalls := by
  constructor <;> simp [ctxReject, ctxNext, hr, h]

/-- Witness for C10 at a context that has already resumed and reason
`"boom"`. -/
theorem c10_reject_after_resume_w :
    ctxReject ⟨true, true, false, none, [[Val.vint 1]]⟩ (Val.vstr "boom") =
      ⟨true, true, false, some (Val.vstr "boom"), [[Val.vint 1]]⟩ :=
  (c10_reject_after_resume ⟨true, true, false, none, [[Val.vint 1]]⟩ (Val.vstr "boom")
    rfl (by decide)).1

/-- `failureArgsFlat` distributes over concatenation of traces. -/
theorem failureArgsFlat_append (l1 l2 : List Event) :
    failureArgsFlat (l1 ++ l2) = failureArgsFlat l1 ++ failureArgsFlat l2 := by
  induction l1 with
  | nil => simp [failureArgsFlat]
  | cons ev t ih => simp [failureArgsFlat, ih]

/-- The error-history invariant holds through the settlement continuation
whenever it holds for the re-entry it wraps. -/
theorem resolveCont_errors (recur : Ch → List Val → Ch × List Event)
    (hrec : ∀ st inc, (recur st inc).1.errors = st.errors ++ failureArgsFlat (recur st inc).2)
    (st : Ch) (v : Val) (sk : Bool) :
    (resolveCont recur st v sk).1.errors =
      st.errors ++ failureArgsFlat (resolveCont recur st v sk).2 := by
  unfold resolveCont
  split
  · exact hrec st []
  · have h := hrec { st with value := v } (argsOf v)
    dsimp only
    split <;> simpa using h

/-- C5 counterexample: a chain with pending error `"boom"` whose only queued
step has no failure slot.  The drain finishes (the queue empties) with the
error still pending, and the error history `_errors` stays empty: an error
that was pending never appears in the history, because `_errors.push`
(line 403) happens only when a failure handler is actually invoked. -/
theorem c5_counterexample :
    c5St.error = some (Val.vstr "boom")
    ∧ (resolveLoop (fun _ _ => HOut.ret (Val.vint 1)) 6 c5St []).1.pending = []
    ∧ (resolveLoop (fun _ _ => HOut.ret (Val.vint 1)) 6 c5St []).1.errors = []
    ∧ (resolveLoop (fun _ _ => HOut.ret (Val.vint 1)) 6 c5St []).1.error =
        some (Val.vstr "boom") := by decide

/-- C5 (amended): over any drain, the error history is append-only — the
final `_errors` is the initial `_errors` followed by exactly the errors
delivered to failure handlers, in delivery order.  In particular recovery
never removes an entry; but an error that never reaches a failure handler
(as in `c5_counterexample`) is not recorded. -/
theorem c5_errors_append_only : ∀ (fuel : Nat) (env : HEnv) (st : Ch) (incoming : List Val),
    (resolveLoop env fuel st incoming).1.errors =
      st.errors ++ failureArgsFlat (resolveLoop env fuel st incoming).2 := by
  intro fuel
  induction fuel with
  | zero => intro env st incoming; simp [resolveLoop, failureArgsFlat]
  | succ n ih =>
    intro env st incoming
    have hcont := fun st v sk => resolveCont_errors (resolveLoop env n) (ih env) st v sk
    simp only [resolveLoop]
    repeat' split
    all_goals
      simp [failureArgsFlat, failureArgsFlat_append, hcont, ih, List.append_assoc]

/-- Attaching an observer step to the settled chain `now(3)` invokes the
success observer synchronously with the single argument `3` — the
settlement recorded by `settledObservation`. -/
theorem now3_observed :
    (chainMethod (fun _ _ => HOut.ret Val.undef) true 3 (nowChain true (Val.vint 3))
      ⟨some 30, some 31, false⟩).2.1 = [⟨30, false, [Val.vint 3]⟩]
    ∧ settledObservation (nowChain true (Val.vint 3)) = .ok [Val.vint 3] := by decide

/-- C6: `all([])` returns an immediately resolved chain with an empty
result (its value is `undefined`, so an attached handler receives the
single argument `undefined`); `all([1, 2, Chain.now(3)])` resolves to the
results sequence `[1, 2, 3]`. -/
theorem c6_all_empty_and_plain :
    allDelivered [] [] = some (.success [Val.undef])
    ∧ allDelivered [.plain (Val.vint 1), .plain (Val.vint 2),
        .async (settledObservation (nowChain true (Val.vint 3)))] [2] =
      some (.success [Val.arr [Val.vint 1, Val.vint 2, Val.vint 3]]) := by decide

/-- Counting a predicate and its negation over a list. -/
theorem countP_not_add_countP {α : Type} (p : α → Bool) (l : List α) :
    l.countP (fun a => !p a) + l.countP p = l.length := by
  induction l with
  | nil => rfl
  | cons x t ih => cases hx : p x <;> simp [List.countP_cons, hx, ← ih] <;> omega

/-- Counting the positions of a list whose element satisfies a predicate
counts the elements satisfying it. -/
theorem filter_range_getD_length {α : Type} (p : α → Bool) (d : α) (l : List α) :
    ((List.range l.length).filter (fun k => p (l.getD k d))).length = l.countP p := by
  induction l using List.reverseRecOn with
  | nil => simp
  | append_singleton xs x ih =>
    have h1 : (xs ++ [x]).length = xs.length + 1 := by simp
    have hcong : (List.range xs.length).filter (fun k => p ((xs ++ [x]).getD k d)) =
        (List.range xs.length).filter (fun k => p (xs.getD k d)) :=
      List.filter_congr (fun k hk => by
        rw [List.getD_append _ _ _ _ (List.mem_range.mp hk)])
    have h2 : (xs ++ [x]).getD xs.length d = x := by
      rw [List.getD_append_right _ _ _ _ (le_refl _)]
      simp
    rw [h1, List.range_succ, List.filter_append, hcong, List.length_append, ih,
      List.countP_append]
    cases hx : p x <;> simp [List.filter, h2, List.countP_singleton, hx]

/-- The number of asynchronous indices equals the count of asynchronous
entries. -/
theorem asyncIdxList_length (entries : List AllEntry) :
    (asyncIdxList entries).length = entries.countP isAsyncEntry := by
  unfold asyncIdxList
  exact filter_range_getD_length isAsyncEntry _ entries

/-- Plain entries plus asynchronous entries exhaust the input. -/
theorem countPlain_add_asyncLength (entries : List AllEntry) :
    entries.countP (fun e => !isAsyncEntry e) + (asyncIdxList entries).length =
      entries.length := by
  rw [asyncIdxList_length]
  exact countP_not_add_countP isAsyncEntry entries

/-- Membership in the asynchronous index list. -/
theorem mem_asyncIdxList (entries : List AllEntry) (k : Nat) :
    k ∈ asyncIdxList entries ↔
      k < entries.length ∧ isAsyncEntry (entries.getD k (.plain Val.undef)) = true := by
  simp [asyncIdxList, List.mem_filter, List.mem_range]

/-- `whenDone` only sets the delivery. -/
theorem whenDone_complete (n : Nat) (st : AllState) : (whenDone n st).complete = st.complete := by
  unfold whenDone; split <;> rfl

/-- `whenDone` leaves `results` unchanged. -/
theorem whenDone_results (n : Nat) (st : AllState) : (whenDone n st).results = st.results := by
  unfold whenDone; split <;> rfl

/-- `whenDone` leaves `firstErr` unchanged. -/
theorem whenDone_firstErr (n : Nat) (st : AllState) : (whenDone n st).firstErr = st.firstErr := by
  unfold whenDone; split <;> rfl

/-- `whenDone` leaves `errResults` unchanged. -/
theorem whenDone_errResults (n : Nat) (st : AllState) :
    (whenDone n st).errResults = st.errResults := by
  unfold whenDone; split <;> rfl

/-- Mapping a pointwise-equal function over an index range. -/
theorem range_map_congr {β : Type} (n : Nat) (f g : Nat → β)
    (h : ∀ j, j < n → f j = g j) :
    (List.range n).map f = (List.range n).map g :=
  List.map_congr_left (fun j hj => h j (List.mem_range.mp hj))

/-- Reading a list through its index range. -/
theorem range_map_getD {α β : Type} (f : α → β) (d : α) (l : List α) :
    (List.range l.length).map (fun k => f (l.getD k d)) = l.map f := by
  induction l using List.reverseRecOn with
  | nil => simp
  | append_singleton xs x ih =>
    have h1 : (xs ++ [x]).length = xs.length + 1 := by simp
    have h2 : (xs ++ [x]).getD xs.length d = x := by
      rw [List.getD_append_right _ _ _ _ (le_refl _)]
      simp
    rw [h1, List.range_succ, List.map_append,
      range_map_congr _ _ (fun k => f (xs.getD k d))
        (fun j hj => by rw [List.getD_append _ _ _ _ hj]),
      ih]
    simp [h2]

/-- Updating one position of a range-indexed map. -/
theorem range_map_set {β : Type} (n : Nat) (f g : Nat → β) (k : Nat) (b : β)
    (hfg : ∀ j, j ≠ k → f j = g j) (hb : g k = b) :
    (List.range n).map g = ((List.range n).map f).set k b := by
  apply List.ext_getElem (by simp)
  intro i h1 h2
  rw [List.getElem_set]
  simp only [List.getElem_map, List.getElem_range]
  split
  · next hik => rw [← hik]; exact hb
  · next hik => exact (hfg i (fun hh => hik hh.symm)).symm

/-- Before any asynchronous settlement the results array holds the plain
values and `undefined` elsewhere. -/
theorem resultsAfter_nil (entries : List AllEntry) :
    resultsAfter entries [] =
      entries.map (fun e => match e with | .plain v => v | .async _ => Val.undef) := by
  unfold resultsAfter
  rw [range_map_congr _ _
      (fun k => match entries.getD k (.plain Val.undef) with
        | .plain v => v | .async _ => Val.undef)
      (fun j hj => by
        cases hE : entries.getD j (.plain Val.undef) with
        | plain v => simp only [hE]
        | async s => cases s <;> (simp only [hE]; try simp))]
  exact range_map_getD
    (fun e => match e with | AllEntry.plain v => v | AllEntry.async _ => Val.undef)
    (AllEntry.plain Val.undef) entries

/-- The invariant holds after the synchronous construction pass. -/
theorem allInv_init (entries : List AllEntry) :
    AllInv entries [] (whenDone entries.length (allInit entries)) := by
  refine ⟨by simp [whenDone_complete, allInit], ?_, ?_, ?_, ?_⟩
  · rw [whenDone_results, resultsAfter_nil]; rfl
  · rw [whenDone_firstErr]; rfl
  · rw [whenDone_errResults]; simp [hasFailIn, allInit]
  · unfold whenDone
    by_cases hnp : (allInit entries).complete = entries.length
    · have hc : (allInit entries).complete =
          entries.countP (fun e => !isAsyncEntry e) := rfl
      rw [if_pos ⟨hnp, rfl⟩]
      simp only [hc] at hnp
      rw [if_pos (by simpa using hnp)]
      unfold finishSpec allFinish
      simp [hasFailIn, allInit, resultsAfter_nil]
    · have hc : (allInit entries).complete =
          entries.countP (fun e => !isAsyncEntry e) := rfl
      rw [if_neg (fun hh => hnp hh.1)]
      simp only [hc] at hnp
      rw [if_neg (by simpa using hnp)]
      rfl

/-- One more settlement appended to the failure tracker. -/
theorem hasFailIn_append (entries : List AllEntry) (pre : List Nat) (k : Nat) :
    hasFailIn entries (pre ++ [k]) = (hasFailIn entries pre || (errAt entries k).isSome) := by
  simp [hasFailIn, List.any_append]

/-- One more settlement folded into `firstErr`. -/
theorem firstErrAfter_append (entries : List AllEntry) (pre : List Nat) (k : Nat) :
    firstErrAfter entries (pre ++ [k]) =
      (match errAt entries k with
       | some e =>
         if truthy (firstErrAfter entries pre) then firstErrAfter entries pre else e
       | none => firstErrAfter entries pre) := by
  unfold firstErrAfter
  rw [List.foldl_append]
  rfl

/-- A successful settlement updates its `results` slot. -/
theorem resultsAfter_append_ok (entries : List AllEntry) (pre : List Nat) (k : Nat)
    (args : List Val) (hk : entries.getD k (.plain Val.undef) = .async (.ok args)) :
    resultsAfter entries (pre ++ [k]) = (resultsAfter entries pre).set k (collapse args) := by
  unfold resultsAfter
  apply range_map_set
  · intro j hjk
    cases hE : entries.getD j (.plain Val.undef) with
    | plain v => simp only [hE]
    | async s =>
      cases s with
      | ok args2 =>
        simp only [hE]
        have hmem : (j ∈ pre) ↔ (j ∈ pre ++ [k]) := by simp [List.mem_append, hjk]
        exact if_congr hmem rfl rfl
      | err e => simp only [hE]
  · simp only [hk]
    simp

/-- A failing settlement leaves `results` unchanged. -/
theorem resultsAfter_append_err (entries : List AllEntry) (pre : List Nat) (k : Nat)
    (e : Val) (hk : entries.getD k (.plain Val.undef) = .async (.err e)) :
    resultsAfter entries (pre ++ [k]) = resultsAfter entries pre := by
  unfold resultsAfter
  apply range_map_congr
  intro j hj
  by_cases hjk : j = k
  · subst hjk; simp only [hk]
  · cases hE : entries.getD j (.plain Val.undef) with
    | plain v => simp only [hE]
    | async s =>
      cases s with
      | ok args2 =>
        simp only [hE]
        have hmem : (j ∈ pre ++ [k]) ↔ (j ∈ pre) := by simp [List.mem_append, hjk]
        exact if_congr hmem rfl rfl
      | err e2 => simp only [hE]

/-- A successful settlement leaves the error sequence unchanged. -/
theorem errsAfter_append_ok (entries : List AllEntry) (pre : List Nat) (k : Nat)
    (hk : errAt entries k = none) :
    errsAfter entries (pre ++ [k]) = errsAfter entries pre := by
  unfold errsAfter
  apply range_map_congr
  intro j hj
  by_cases hjk : j = k
  · subst hjk
    by_cases hjp : j ∈ pre <;> simp [hjp, hk]
  · have hmem : (j ∈ pre ++ [k]) ↔ (j ∈ pre) := by simp [List.mem_append, hjk]
    exact if_congr hmem rfl rfl

/-- A failing settlement records its error at its slot. -/
theorem errsAfter_append_err (entries : List AllEntry) (pre : List Nat) (k : Nat)
    (e : Val) (hk : errAt entries k = some e) :
    errsAfter entries (pre ++ [k]) = (errsAfter entries pre).set k e := by
  unfold errsAfter
  apply range_map_set
  · intro j hjk
    have hmem : (j ∈ pre) ↔ (j ∈ pre ++ [k]) := by simp [List.mem_append, hjk]
    exact if_congr hmem rfl rfl
  · simp [hk]

/-- While no settled entry has failed, the would-be error sequence is all
`undefined` — the base array `errResults` is created from. -/
theorem errsAfter_of_not_fail (entries : List AllEntry) (pre : List Nat)
    (h : hasFailIn entries pre = false) :
    errsAfter entries pre = List.replicate entries.length Val.undef := by
  have hall : ∀ j ∈ pre, errAt entries j = none := by
    intro j hj
    simp only [hasFailIn] at h
    rcases hE : errAt entries j with _ | e
    · rfl
    · exfalso
      have : pre.any (fun k => (errAt entries k).isSome) = true :=
        List.any_eq_true.mpr ⟨j, hj, by simp [hE]⟩
      rw [this] at h
      simp at h
  unfold errsAfter
  apply List.ext_getElem (by simp)
  intro i h1 h2
  simp only [List.getElem_map, List.getElem_range, List.getElem_replicate]
  by_cases hi : i ∈ pre
  · rw [if_pos hi, hall i hi]; rfl
  · rw [if_neg hi]

/-- One asynchronous settlement preserves the `all` invariant. -/
theorem allInv_step (entries : List AllEntry) (pre : List Nat) (k : Nat) (st : AllState)
    (hk : k ∈ asyncIdxList entries) (hkp : k ∉ pre) (hnd : pre.Nodup)
    (hmem : ∀ j ∈ pre, j ∈ asyncIdxList entries)
    (hInv : AllInv entries pre st) :
    AllInv entries (pre ++ [k]) (allSettle entries.length st k (settleAt entries k)) := by
  obtain ⟨h1, h2, h3, h4, h5⟩ := hInv
  have hkr := (mem_asyncIdxList entries k).mp hk
  have hlen := countPlain_add_asyncLength entries
  have hndk : (pre ++ [k]).Nodup := by
    rw [List.nodup_append]
    refine ⟨hnd, List.nodup_singleton _, ?_⟩
    intro a ha hak
    rw [List.mem_singleton] at hak
    exact hkp (hak ▸ ha)
  have hsub : pre ++ [k] ⊆ asyncIdxList entries := by
    intro a ha
    rcases List.mem_append.mp ha with h | h
    · exact hmem a h
    · rw [List.mem_singleton] at h
      exact h ▸ hk
  have hle : (pre ++ [k]).length ≤ (asyncIdxList entries).length :=
    (hndk.subperm hsub).length_le
  have hle' : pre.length + 1 ≤ (asyncIdxList entries).length := by simpa using hle
  have hlt : entries.countP (fun e => !isAsyncEntry e) + pre.length < entries.length := by
    omega
  have h5' : st.delivery = none := by
    rw [h5, if_neg (by omega)]
  rcases hcase : entries.getD k (.plain Val.undef) with v | s
  · rw [hcase] at hkr
    simp [isAsyncEntry] at hkr
  rcases s with args | e
  · -- successful settlement
    have hset : settleAt entries k = .ok args := by unfold settleAt; rw [hcase]
    have herr : errAt entries k = none := by unfold errAt; rw [hset]
    rw [hset]
    simp only [allSettle]
    refine ⟨?_, ?_, ?_, ?_, ?_⟩
    · rw [whenDone_complete]
      simp only [List.length_append, List.length_singleton]
      omega
    · rw [whenDone_results]
      rw [resultsAfter_append_ok entries pre k args hcase]
      simp only [h2]
    · rw [whenDone_firstErr, firstErrAfter_append, herr]
      exact h3
    · rw [whenDone_errResults, hasFailIn_append, herr,
        errsAfter_append_ok entries pre k herr]
      simpa using h4
    · unfold whenDone
      by_cases hdone : st.complete + 1 = entries.length
      · rw [if_pos ⟨hdone, h5'⟩]
        rw [if_pos (by simp only [List.length_append, List.length_singleton]; omega)]
        unfold allFinish finishSpec
        rw [hasFailIn_append, herr]
        simp only [Option.isSome_none, Bool.or_false]
        cases hfail : hasFailIn entries pre with
        | false =>
          simp only [hfail, Bool.false_eq_true, if_false] at h4
          simp [h4, hfail, resultsAfter_append_ok entries pre k args hcase, h2]
        | true =>
          simp only [hfail, if_true] at h4
          simp [h4, hfail, h3, firstErrAfter_append, herr,
            errsAfter_append_ok entries pre k herr]
      · rw [if_neg (fun hh => hdone hh.1)]
        rw [if_neg (by simp only [List.length_append, List.length_singleton]; omega)]
        exact h5'
  · -- failing settlement
    have hset : settleAt entries k = .err e := by unfold settleAt; rw [hcase]
    have herr : errAt entries k = some e := by unfold errAt; rw [hset]
    rw [hset]
    simp only [allSettle]
    have hbase : st.errResults.getD (List.replicate entries.length Val.undef) =
        errsAfter entries pre := by
      cases hfail : hasFailIn entries pre with
      | false =>
        simp only [hfail, Bool.false_eq_true, if_false] at h4
        rw [h4, Option.getD_none, errsAfter_of_not_fail entries pre hfail]
      | true =>
        simp only [hfail, if_true] at h4
        rw [h4, Option.getD_some]
    refine ⟨?_, ?_, ?_, ?_, ?_⟩
    · rw [whenDone_complete]
      simp only [List.length_append, List.length_singleton]
      omega
    · rw [whenDone_results]
      rw [resultsAfter_append_err entries pre k e hcase]
      exact h2
    · rw [whenDone_firstErr, firstErrAfter_append, herr]
      simp [h3]
    · rw [whenDone_errResults, hasFailIn_append, herr]
      rw [errsAfter_append_err entries pre k e herr, hbase]
      simp
    · unfold whenDone
      by_cases hdone : st.complete + 1 = entries.length
      · have hc2 : List.countP (fun e => !isAsyncEntry e) entries + (pre ++ [k]).length =
            entries.length := by
          simp only [List.length_append, List.length_singleton]
          omega
        rw [if_pos ⟨hdone, h5'⟩, if_pos hc2]
        unfold allFinish finishSpec
        rw [hasFailIn_append, herr]
        simp [hbase, errsAfter_append_err entries pre k e herr,
          firstErrAfter_append, herr, h3]
      · have hc2 : ¬(List.countP (fun e => !isAsyncEntry e) entries + (pre ++ [k]).length =
            entries.length) := by
          simp only [List.length_append, List.length_singleton]
          omega
        rw [if_neg (fun hh => hdone hh.1), if_neg hc2]
        exact h5'

/-- Settling one more entry at the end of an `all` run. -/
theorem allRun_concat (entries : List AllEntry) (xs : List Nat) (x : Nat) :
    allRun entries (xs ++ [x]) =
      allSettle entries.length (allRun entries xs) x (settleAt entries x) := by
  simp [allRun, List.foldl_append]

/-- The `all` invariant holds after any valid partial settlement sequence. -/
theorem allInv_run (entries : List AllEntry) :
    ∀ pre : List Nat, pre.Nodup → (∀ j ∈ pre, j ∈ asyncIdxList entries) →
      AllInv entries pre (allRun entries pre) := by
  intro pre
  induction pre using List.reverseRecOn with
  | nil =>
    intro _ _
    exact allInv_init entries
  | append_singleton xs x ih =>
    intro hnd hmem
    rw [allRun_concat]
    have hndxs : xs.Nodup := hnd.sublist (List.sublist_append_left xs [x])
    have hx : x ∈ asyncIdxList entries := hmem x (by simp)
    have hxxs : x ∉ xs := by
      rw [List.nodup_append] at hnd
      intro hmm
      exact hnd.2.2 hmm (List.mem_singleton_self x)
    exact allInv_step entries xs x (allRun entries xs) hx hxxs hndxs
      (fun j hj => hmem j (List.mem_append_left _ hj))
      (ih hndxs (fun j hj => hmem j (List.mem_append_left _ hj)))

/-- Folding the first-truthy-error accumulator from a truthy seed is the
identity. -/
theorem foldl_firstErr_truthy (errs : List Val) (acc : Val) (h : truthy acc = true) :
    errs.foldl (fun a e => if truthy a then a else e) acc = acc := by
  induction errs with
  | nil => rfl
  | cons e t ih => simp [h, ih]

/-- From a falsy seed the first-truthy-error accumulator together with the
generic-error fallback computes exactly `find? truthy`. -/
theorem foldl_firstErr_find (errs : List Val) (acc : Val) (h : truthy acc = false) :
    (if truthy (errs.foldl (fun a e => if truthy a then a else e) acc) = true
     then errs.foldl (fun a e => if truthy a then a else e) acc
     else Val.errObj "No reason given") =
      (match errs.find? truthy with
       | some e => e
       | none => Val.errObj "No reason given") := by
  induction errs generalizing acc with
  | nil => simp [h]
  | cons e t ih =>
    simp only [List.foldl_cons, h, Bool.false_eq_true, if_false]
    by_cases he : truthy e = true
    · rw [foldl_firstErr_truthy t e he, List.find?_cons_of_pos _ he]
      simp [he]
    · rw [ih e (by simpa using he), List.find?_cons_of_neg _ (by simpa using he)]

/-- `firstErr` only looks at the errors delivered, in settlement order. -/
theorem firstErrAfter_eq (entries : List AllEntry) (order : List Nat) :
    firstErrAfter entries order =
      (order.filterMap (errAt entries)).foldl
        (fun a e => if truthy a then a else e) Val.undef := by
  unfold firstErrAfter
  suffices h : ∀ acc : Val,
      order.foldl (fun acc k =>
        match errAt entries k with
        | some e => if truthy acc then acc else e
        | none => acc) acc =
      (order.filterMap (errAt entries)).foldl
        (fun a e => if truthy a then a else e) acc from h Val.undef
  induction order with
  | nil => intro acc; rfl
  | cons k t ih =>
    intro acc
    cases hE : errAt entries k with
    | none => simp [List.filterMap_cons, hE, ih]
    | some e => simp [List.filterMap_cons, hE, ih]

/-- Over a complete settlement order, a failure was recorded precisely when
some entry eventually fails. -/
theorem hasFailIn_full (entries : List AllEntry) (order : List Nat)
    (hord : order.Perm (asyncIdxList entries)) :
    hasFailIn entries order = anyFail entries := by
  rw [Bool.eq_iff_iff]
  simp only [hasFailIn, anyFail, List.any_eq_true]
  constructor
  · rintro ⟨k, hk, hks⟩
    have hka := hord.subset hk
    have hkr := (mem_asyncIdxList entries k).mp hka
    rcases hE : errAt entries k with _ | e
    · rw [hE] at hks; simp at hks
    · unfold errAt settleAt at hE
      rcases hgd : entries.getD k (.plain Val.undef) with v | s
      · rw [hgd] at hE; simp at hE
      · rcases s with args | e2
        · rw [hgd] at hE; simp at hE
        · refine ⟨.async (.err e2), ?_, by simp⟩
          rw [List.getD_eq_getElem entries _ hkr.1] at hgd
          exact hgd ▸ List.getElem_mem hkr.1
  · rintro ⟨x, hx, hxp⟩
    rcases x with v | s
    · simp at hxp
    rcases s with args | e
    · simp at hxp
    obtain ⟨k, hklt, hke⟩ := List.mem_iff_getElem.mp hx
    have hgd : entries.getD k (.plain Val.undef) = .async (.err e) := by
      rw [List.getD_eq_getElem entries _ hklt, hke]
    have hka : k ∈ asyncIdxList entries :=
      (mem_asyncIdxList entries k).mpr ⟨hklt, by rw [hgd]; rfl⟩
    refine ⟨k, hord.mem_iff.mpr hka, ?_⟩
    unfold errAt settleAt
    rw [hgd]
    rfl

/-- Over a complete settlement order every successful slot is filled, so the
results array is the expected per-index sequence. -/
theorem resultsAfter_full (entries : List AllEntry) (order : List Nat)
    (hord : order.Perm (asyncIdxList entries)) :
    resultsAfter entries order = expectedResults entries := by
  unfold resultsAfter expectedResults
  rw [range_map_congr _ _
      (fun k => match entries.getD k (.plain Val.undef) with
        | .plain v => v
        | .async (.ok args) => collapse args
        | .async (.err _) => Val.undef)
      ?_]
  · exact range_map_getD
      (fun e => match e with
        | AllEntry.plain v => v
        | AllEntry.async (Settle.ok args) => collapse args
        | AllEntry.async (Settle.err _) => Val.undef)
      (AllEntry.plain Val.undef) entries
  · intro j hj
    cases hE : entries.getD j (.plain Val.undef) with
    | plain v => simp only [hE]
    | async s =>
      cases s with
      | ok args =>
        simp only [hE]
        have hja : j ∈ asyncIdxList entries :=
          (mem_asyncIdxList entries j).mpr ⟨hj, by rw [hE]; rfl⟩
        rw [if_pos (hord.mem_iff.mpr hja)]
      | err e => simp only [hE]

/-- C2 counterexample: `all([okChain, failChain])` where the second entry
rejects with `"boom"`.  The combined chain rejects with `"boom"` alone — the
failure delivery is the single argument `"boom"`, not `"boom"` followed by
the per-index error sequence, because `reject` (line 394) binds only its
first parameter and drops the `errResults` argument passed at line 509. -/
theorem c2_counterexample :
    allDelivered [AllEntry.async (.ok [Val.vint 1]), AllEntry.async (.err (Val.vstr "boom"))]
      [0, 1] = some (.failure [Val.vstr "boom"])
    ∧ Delivery.failure [Val.vstr "boom"] ≠
        Delivery.failure [Val.vstr "boom", Val.arr [Val.undef, Val.vstr "boom"]] := by decide

/-- C2 (amended): for every input sequence of chains/thenables and plain
values and every settlement order of the asynchronous entries: the result
chain delivers nothing until every entry has settled; once all have
settled, if at least one entry failed it rejects with only the first truthy
error encountered in settlement order (or a generic `Error('No reason
given')` if no failing entry gave a truthy reason) — the per-index error
sequence is assembled but not delivered, since `reject` reads only its
first argument; if no entry failed it resumes with the per-index results
sequence in original index order regardless of completion order (plain
values settle immediately at their index). -/
theorem c2_all_settlement (entries : List AllEntry) (order : List Nat)
    (hord : order.Perm (asyncIdxList entries)) (hne : entries ≠ []) :
    (∀ n, n < order.length → (allRun entries (order.take n)).delivery = none)
    ∧ allDelivered entries order =
        some (if anyFail entries = true then Delivery.failure [specReason entries order]
              else Delivery.success [Val.arr (expectedResults entries)]) := by
  have hasyncNd : (asyncIdxList entries).Nodup :=
    (List.nodup_range entries.length).filter _
  have hordNd : order.Nodup := (hord.nodup_iff).mpr hasyncNd
  have hlen : entries.countP (fun e => !isAsyncEntry e) + order.length = entries.length := by
    rw [hord.length_eq]
    exact countPlain_add_asyncLength entries
  constructor
  · intro n hn
    have hInv := allInv_run entries (order.take n)
      (hordNd.sublist (List.take_sublist n order))
      (fun j hj => hord.subset (List.take_subset n order hj))
    unfold AllInv at hInv
    rw [hInv.2.2.2.2, if_neg]
    rw [List.length_take]
    omega
  · unfold allDelivered
    have hee : entries.isEmpty = false := by
      cases entries with
      | nil => exact absurd rfl hne
      | cons x xs => rfl
    simp only [hee, Bool.false_eq_true, if_false]
    have hInv := allInv_run entries order hordNd (fun j hj => hord.subset hj)
    unfold AllInv at hInv
    rw [hInv.2.2.2.2, if_pos hlen]
    congr 1
    unfold finishSpec
    rw [hasFailIn_full entries order hord]
    cases hf : anyFail entries with
    | true =>
      simp only [if_true]
      congr 1
      unfold rejectDelivery specReason
      simp only [List.headD_cons]
      rw [firstErrAfter_eq]
      exact congrArg (fun x => [x]) (foldl_firstErr_find _ Val.undef rfl)
    | false =>
      simp only [Bool.false_eq_true, if_false]
      rw [resultsAfter_full entries order hord]

/-- Witness for C2 at `[1, failChain("boom")]` with the single settlement
order `[1]`. -/
theorem c2_all_settlement_w :
    allDelivered [AllEntry.plain (Val.vint 1), AllEntry.async (.err (Val.vstr "boom"))] [1] =
      some (if anyFail [AllEntry.plain (Val.vint 1),
              AllEntry.async (.err (Val.vstr "boom"))] = true
            then Delivery.failure [specReason [AllEntry.plain (Val.vint 1),
              AllEntry.async (.err (Val.vstr "boom"))] [1]]
            else Delivery.success [Val.arr (expectedResults [AllEntry.plain (Val.vint 1),
              AllEntry.async (.err (Val.vstr "boom"))])]) :=
  (c2_all_settlement [AllEntry.plain (Val.vint 1),
    AllEntry.async (.err (Val.vstr "boom"))] [1] (by decide) (by decide)).2

end ChainLib
